import Mathlib

/-!
Verification of the storm SSH-config manager (repository `intrepidsilence/storm`).

The development shallowly embeds the Python source:

* strings are `List Char` (`Str`), files are lists of lines (`List Str`);
* the Config Model (`ssh_config_parser.ConfigParser`, whose source file is
  not present in the repository snapshot: only its callers and tests are)
  is modelled from the specification: `loadLines`, `dumpLines`, `dump`,
  `writeToFile`, `addHost`, `updateHost`, `searchHost`;
* the Host Store layer (`storm/__init__.py`, present in the snapshot) is
  translated directly from the source: `getOptions`, `quoteOptions`
  (`Storm._quote_options`), `isHostIn`, `addEntry`, `editEntry`,
  `listEntries`.
-/

namespace Storm

/-- Characters of a line; Python `str` is embedded as `List Char`. -/
abbrev Str := List Char

/-- Python whitespace (the characters matched by `\s` and stripped by `str.strip`). -/
def isWS (c : Char) : Bool :=
  c = ' ' || c = '\t' || c = '\n' || c = '\r' || c = '\x0b' || c = '\x0c'

/-- Word characters for the regex `\b` boundary in `^\s*Host\b`. -/
def isWordChar (c : Char) : Bool :=
  ('A' ≤ c && c ≤ 'Z') || ('a' ≤ c && c ≤ 'z') || ('0' ≤ c && c ≤ '9') || c = '_'

/-- Python `str.lstrip()`. -/
def trimL (l : Str) : Str := l.dropWhile isWS

/-- Python `str.rstrip()`. -/
def trimR (l : Str) : Str := l.rdropWhile isWS

/-- Python `str.strip()`. -/
def trimB (l : Str) : Str := trimR (trimL l)

/-- The uppercase/lowercase ASCII letter pairs used by `str.lower` on ASCII input. -/
def ucPairs : List (Char × Char) :=
  [('A','a'), ('B','b'), ('C','c'), ('D','d'), ('E','e'), ('F','f'), ('G','g'),
   ('H','h'), ('I','i'), ('J','j'), ('K','k'), ('L','l'), ('M','m'), ('N','n'),
   ('O','o'), ('P','p'), ('Q','q'), ('R','r'), ('S','s'), ('T','t'), ('U','u'),
   ('V','v'), ('W','w'), ('X','x'), ('Y','y'), ('Z','z')]

/-- Python `str.lower` on one character (ASCII; other characters are unchanged). -/
def lowerC (c : Char) : Char :=
  match ucPairs.find? (fun p => p.1 = c) with
  | some p => p.2
  | none => c

/-- Python `str.lower`. -/
def lowerStr (s : Str) : Str := s.map lowerC

theorem lowerC_cases (c : Char) : lowerC c = c ∨ ∃ p ∈ ucPairs, lowerC c = p.2 := by
  unfold lowerC
  cases h : ucPairs.find? (fun p => p.1 = c) with
  | none => exact Or.inl rfl
  | some p => exact Or.inr ⟨p, List.mem_of_find?_eq_some h, rfl⟩

theorem lowerC_fix_of_lower {d : Char} (h : ∃ p ∈ ucPairs, d = p.2) : lowerC d = d := by
  obtain ⟨p, hp, rfl⟩ := h
  revert hp
  have : ∀ p ∈ ucPairs, lowerC p.2 = p.2 := by decide
  exact this p

theorem lowerC_idem (c : Char) : lowerC (lowerC c) = lowerC c := by
  rcases lowerC_cases c with h | h
  · rw [h, h]
  · exact lowerC_fix_of_lower ⟨h.choose, h.choose_spec.1, h.choose_spec.2⟩

theorem lowerC_ws (c : Char) (h : isWS c = false) : isWS (lowerC c) = false := by
  rcases lowerC_cases c with h' | ⟨p, hp, h'⟩
  · rw [h']; exact h
  · rw [h']
    revert hp
    have : ∀ p ∈ ucPairs, isWS p.2 = false := by decide
    exact this p

theorem lowerC_hash (c : Char) (h : c ≠ '#') : lowerC c ≠ '#' := by
  rcases lowerC_cases c with h' | ⟨p, hp, h'⟩
  · rw [h']; exact h
  · rw [h']
    revert hp
    have : ∀ p ∈ ucPairs, p.2 ≠ '#' := by decide
    exact this p

theorem lowerStr_idem (s : Str) : lowerStr (lowerStr s) = lowerStr s := by
  induction s with
  | nil => rfl
  | cons c s ih =>
    simp only [lowerStr, List.map_cons, List.map_map] at *
    simp only [Function.comp, lowerC_idem]
    simpa [lowerStr, Function.comp] using ih

theorem trimL_idem (l : Str) : trimL (trimL l) = trimL l := by
  induction l with
  | nil => rfl
  | cons c cs ih =>
    by_cases h : isWS c
    · simpa [trimL, List.dropWhile_cons, h] using ih
    · simp [trimL, List.dropWhile_cons, h]

theorem trimR_idem (l : Str) : trimR (trimR l) = trimR l := by
  simp [trimR, List.rdropWhile, List.dropWhile_idempotent]

/-- `trimR` is a prefix of the input. -/
theorem trimR_append (l : Str) : ∃ t, l = trimR l ++ t := by
  refine ⟨(l.reverse.takeWhile isWS).reverse, ?_⟩
  have h2 : l = (l.reverse.takeWhile isWS ++ l.reverse.dropWhile isWS).reverse := by
    rw [List.takeWhile_append_dropWhile, List.reverse_reverse]
  conv_lhs => rw [h2]
  rw [List.reverse_append]
  simp [trimR, List.rdropWhile]

/-- A left-trimmed list stays left-trimmed after right trimming. -/
theorem trimL_trimR (l : Str) (h : trimL l = l) : trimL (trimR l) = trimR l := by
  cases hr : trimR l with
  | nil => rfl
  | cons c cs =>
    obtain ⟨t, ht⟩ := trimR_append l
    rw [hr] at ht
    have hc : isWS c = false := by
      by_cases hw : isWS c
      · exfalso
        have h2 : trimL l = l := h
        rw [ht] at h2
        have h3 : List.dropWhile isWS (cs ++ t) = c :: (cs ++ t) := by
          simpa [trimL, List.dropWhile_cons, hw] using h2
        have hlen := (List.dropWhile_suffix (l := cs ++ t) isWS).sublist.length_le
        rw [h3] at hlen
        simp at hlen
      · simpa using hw
    simp [trimL, List.dropWhile_cons, hc]

theorem trimB_idem (l : Str) : trimB (trimB l) = trimB l := by
  unfold trimB
  rw [trimL_trimR (trimL l) (trimL_idem l), trimR_idem]

/-- Left-trimming after `trimB` is the identity. -/
theorem trimL_trimB (l : Str) : trimL (trimB l) = trimB l :=
  trimL_trimR (trimL l) (trimL_idem l)

theorem trimB_cons_ws (c : Char) (l : Str) (h : isWS c = true) :
    trimB (c :: l) = trimB l := by
  simp [trimB, trimL, List.dropWhile_cons, h]

/-- Concatenation of the lists produced by `f`. -/
def catMap (f : α → List β) : List α → List β
  | [] => []
  | a :: as => f a ++ catMap f as

theorem catMap_append (f : α → List β) (l1 l2 : List α) :
    catMap f (l1 ++ l2) = catMap f l1 ++ catMap f l2 := by
  induction l1 with
  | nil => rfl
  | cons a as ih => simp [catMap, ih]

/-- Lexicographic comparison of strings by code point, as Python `<=` on `str`. -/
def strLe : Str → Str → Bool
  | [], _ => true
  | _ :: _, [] => false
  | a :: as, b :: bs => if a < b then true else if b < a then false else strLe as bs

theorem strLe_total (x y : Str) : strLe x y = true ∨ strLe y x = true := by
  induction x generalizing y with
  | nil => exact Or.inl rfl
  | cons a as ih =>
    cases y with
    | nil => exact Or.inr rfl
    | cons b bs =>
      rcases lt_trichotomy a b with h | h | h
      · left; simp [strLe, h]
      · subst h
        rcases ih bs with h' | h' <;> simp [strLe, h', lt_irrefl]
      · right; simp [strLe, h]

theorem strLe_trans {x y z : Str} (h1 : strLe x y = true) (h2 : strLe y z = true) :
    strLe x z = true := by
  induction x generalizing y z with
  | nil => rfl
  | cons a as ih =>
    cases y with
    | nil => simp [strLe] at h1
    | cons b bs =>
      cases z with
      | nil => simp [strLe] at h2
      | cons c cs =>
        simp only [strLe] at h1 h2 ⊢
        rcases lt_trichotomy a b with hab | hab | hab
        · rcases lt_trichotomy b c with hbc | hbc | hbc
          · simp [lt_trans hab hbc]
          · subst hbc; simp [hab]
          · rw [if_neg (asymm hbc), if_pos hbc] at h2; exact absurd h2 (by simp)
        · subst hab
          rcases lt_trichotomy a c with hac | hac | hac
          · simp [hac]
          · subst hac
            rw [if_neg (lt_irrefl a), if_neg (lt_irrefl a)] at h1 h2 ⊢
            exact ih h1 h2
          · rw [if_neg (asymm hac), if_pos hac] at h2; exact absurd h2 (by simp)
        · rw [if_neg (asymm hab), if_pos hab] at h1; exact absurd h1 (by simp)

/-- Does `needle` occur at the start of `hay`? (Python `str.startswith`.) -/
def strStarts : Str → Str → Bool
  | [], _ => true
  | _ :: _, [] => false
  | a :: as, b :: bs => a = b && strStarts as bs

/-- Python `needle in hay` substring containment: case-sensitive, unanchored. -/
def strContains (needle : Str) : Str → Bool
  | [] => strStarts needle []
  | c :: t => strStarts needle (c :: t) || strContains needle t

/-! ## Data model

`Record` is one structural unit of the parsed file, per spec section 3:
a Host stanza, a comment line (verbatim), or a blank line. An option value
is a scalar until the same directive repeats, after which it is an ordered
list of the occurrences. -/

/-- Value of one directive inside a Host stanza. -/
inductive OptionValue where
  | scalar (v : Str)
  | list (vs : List Str)
deriving DecidableEq

/-- Insertion-ordered mapping from lowercased directive name to value. -/
abbrev Options := List (Str × OptionValue)

/-- Parsed Host stanza: the raw pattern string after `Host`, and its options. -/
structure HostRec where
  host : Str
  options : Options
deriving DecidableEq

/-- One logical unit of the config file, in file order. -/
inductive Record where
  | entry (e : HostRec)
  | comment (text : Str)
  | empty
deriving DecidableEq

/-- The `type` discriminator the Python dicts carry (`entry.get("type") == 'entry'`). -/
def Record.isEntry : Record → Bool
  | .entry _ => true
  | _ => false

/-- The `host` field the Python dicts carry; comments and blank lines carry none,
so at the store layer they compare unequal to every real host name and sort
with an empty key. -/
def Record.hostOf : Record → Str
  | .entry e => e.host
  | _ => []

/-- The `options` mapping of a record (empty for comments and blank lines). -/
def Record.optionsOf : Record → Options
  | .entry e => e.options
  | _ => []

/-- Look up a directive in an options mapping. -/
def optLookup (k : Str) : Options → Option OptionValue
  | [] => none
  | (k', v) :: os => if k' = k then some v else optLookup k os

/-- Record one further occurrence of directive `k` with value `v`: a first
occurrence is stored as a scalar, a second promotes the scalar to a
two-element list, later ones append to the list. -/
def addOptList (os : Options) (k v : Str) : Options :=
  match os with
  | [] => [(k, .scalar v)]
  | (k', ov) :: rest =>
    if k' = k then
      match ov with
      | .scalar w => (k', .list [w, v]) :: rest
      | .list ws => (k', .list (ws ++ [v])) :: rest
    else (k', ov) :: addOptList rest k v

/-- Add one option occurrence to a Host stanza under construction. -/
def addOpt (e : HostRec) (k v : Str) : HostRec :=
  { e with options := addOptList e.options k v }

/-! ## Config Model: load

Modelled from the spec: the parser in `storm/parsers/ssh_config_parser.py`
is not part of the repository snapshot; `loadLines` follows spec section 4.1.
A line `^\s*#` is a comment stored verbatim; a whitespace-only line is a
blank placeholder; `^\s*Host\b` opens a stanza whose `host` is the trimmed
remainder; any other line is `key value` split at the first whitespace run,
attached to the currently open stanza (and dropped when no stanza is open),
with the key lowercased. A comment or blank line closes the open stanza. -/

/-- Classification of one input line. -/
inductive LineKind where
  | blank
  | commentLine (text : Str)
  | hostLine (h : Str)
  | optionLine (k v : Str)
deriving DecidableEq

/-- The four characters of the `Host` keyword. -/
def hostWord : Str := ['H', 'o', 's', 't']

/-- Is a classification one that ends option accumulation? -/
def LineKind.isOpt : LineKind → Bool
  | .optionLine _ _ => true
  | _ => false

/-- Does the `\b` boundary of `^\s*Host\b` succeed at this point of the line? -/
def wordEnds : Str → Bool
  | [] => true
  | c :: _ => !(isWordChar c)

/-- Classify one line of config text. -/
def classify (l : Str) : LineKind :=
  if trimL l = [] then .blank
  else if (trimL l).head? = some '#' then .commentLine l
  else if (trimL l).take 4 = hostWord ∧ wordEnds ((trimL l).drop 4) = true then
    .hostLine (trimB ((trimL l).drop 4))
  else
    .optionLine (lowerStr ((trimL l).takeWhile (fun c => !(isWS c))))
      (((trimL l).dropWhile (fun c => !(isWS c))).dropWhile isWS)

/-- Flush the stanza currently under construction, if any. -/
def flush : Option HostRec → List Record
  | none => []
  | some e => [.entry e]

/-- Modelled from the spec: the line-by-line loader of spec section 4.1,
carrying the currently open Host stanza. -/
def loadAux : List Str → Option HostRec → List Record
  | [], cur => flush cur
  | l :: ls, cur =>
    match classify l with
    | .blank => flush cur ++ .empty :: loadAux ls none
    | .commentLine c => flush cur ++ .comment c :: loadAux ls none
    | .hostLine h => flush cur ++ loadAux ls (some ⟨h, []⟩)
    | .optionLine k v =>
      match cur with
      | none => loadAux ls none
      | some e => loadAux ls (some (addOpt e k v))

/-- Modelled from the spec: `load` of the Config Model, on a file given as
its list of lines. -/
def loadLines (ls : List Str) : List Record := loadAux ls none

/-! ## Config Model: dump -/

/-- Four-space indentation used for option lines on write. -/
def indent4 : Str := [' ', ' ', ' ', ' ']

/-- Render one option line. -/
def mkOptLine (k v : Str) : Str := indent4 ++ k ++ ' ' :: v

/-- Render the lines of one directive: list-valued options render one line
per value, in collection order. -/
def optLinesFor : Str × OptionValue → List Str
  | (k, .scalar v) => [mkOptLine k v]
  | (k, .list vs) => vs.map (mkOptLine k)

/-- Render the lines of one record. -/
def recLines : Record → List Str
  | .entry e => (hostWord ++ ' ' :: e.host) :: catMap optLinesFor e.options
  | .comment c => [c]
  | .empty => [[]]

/-- Modelled from the spec: the serializer of spec section 4.1, as lines. -/
def dumpLines (rs : List Record) : List Str := catMap recLines rs

/-- Modelled from the spec: `dump` returns an absent value (no text at all)
for the empty Record sequence, distinguishing "nothing to persist" from
"persist an empty file"; otherwise it renders the records in order. -/
def dump (rs : List Record) : Option (List Str) :=
  if rs = [] then none else some (dumpLines rs)

/-- Modelled from the spec: `write_to_file` performs no write when `dump`
returns the absent value, leaving the target file as it was. -/
def writeToFile (rs : List Record) (file : List Str) : List Str :=
  match dump rs with
  | none => file
  | some out => out

/-! ## Well-formedness of loaded records

Every Record sequence produced by `loadLines` satisfies these shape
invariants, and on such sequences dumping and re-loading is the identity. -/

/-- Shape of an option key as produced by the loader: a nonempty run of
non-whitespace characters, already lowercased, not starting a comment. -/
def WFKey (k : Str) : Prop :=
  k ≠ [] ∧ (∀ c ∈ k, isWS c = false) ∧ lowerStr k = k ∧ k.head? ≠ some '#'

/-- Shape of an option value as produced by the loader: it never starts
with whitespace (the separating run was consumed). -/
def WFVal (v : Str) : Prop := ∀ c, v.head? = some c → isWS c = false

/-- A list-valued option only arises once a directive repeated. -/
def WFOptVal : OptionValue → Prop
  | .scalar v => WFVal v
  | .list vs => 2 ≤ vs.length ∧ ∀ v ∈ vs, WFVal v

/-- The keys of an options mapping. -/
def keysOf (os : Options) : List Str := os.map Prod.fst

/-- Options mapping shape: well-formed pairs with pairwise-distinct keys. -/
def WFOpts (os : Options) : Prop :=
  (∀ p ∈ os, WFKey p.1 ∧ WFOptVal p.2) ∧ (keysOf os).Nodup

/-- Record shape invariant established by the loader. -/
def WFRec : Record → Prop
  | .entry e => trimB e.host = e.host ∧ WFOpts e.options
  | .comment c => classify c = .commentLine c
  | .empty => True

/-- All records of a sequence are well-formed. -/
def WFRecs (rs : List Record) : Prop := ∀ r ∈ rs, WFRec r

theorem dropWhile_head_not (p : Char → Bool) (l : Str) {c : Char}
    (h : (l.dropWhile p).head? = some c) : p c = false := by
  induction l with
  | nil => simp at h
  | cons a as ih =>
    by_cases hp : p a
    · exact ih (by simpa [List.dropWhile_cons, hp] using h)
    · simp only [List.dropWhile_cons, hp] at h
      simp only [Bool.false_eq_true, if_false, List.head?_cons, Option.some_inj] at h
      subst h
      simpa using hp

theorem classify_hostLine_trim {l h : Str} (hc : classify l = .hostLine h) :
    trimB h = h := by
  unfold classify at hc
  split_ifs at hc with h1 h2 h3
  all_goals injection hc with hh
  all_goals (try subst hh)
  all_goals exact trimB_idem _

theorem head_trimL_not_ws {l : Str} {c : Char} (h : (trimL l).head? = some c) :
    isWS c = false := by
  induction l with
  | nil => simp [trimL] at h
  | cons a as ih =>
    by_cases hw : isWS a
    · exact ih (by simpa [trimL, List.dropWhile_cons, hw] using h)
    · simp only [trimL, List.dropWhile_cons, hw] at h
      simp only [Bool.false_eq_true, if_false, List.head?_cons, Option.some_inj] at h
      subst h
      simpa using hw

theorem takeWhile_noWS_head {s : Str} {c : Char} (hne : s.head? = some c)
    (hc : isWS c = false) :
    (s.takeWhile (fun c => !(isWS c))).head? = some c := by
  cases s with
  | nil => simp at hne
  | cons a as =>
    simp only [List.head?_cons, Option.some_inj] at hne
    subst hne
    simp [List.takeWhile_cons, hc]

theorem mem_takeWhile_noWS {s : Str} {c : Char}
    (h : c ∈ s.takeWhile (fun c => !(isWS c))) : isWS c = false := by
  have := List.mem_takeWhile_imp h
  simpa using this

theorem classify_optionLine_WF {l k v : Str} (hc : classify l = .optionLine k v) :
    WFKey k ∧ WFVal v := by
  unfold classify at hc
  split_ifs at hc with h1 h2 h3
  case _ =>
    (try (injection hc with hk hv; subst hk; subst hv))
    set s := trimL l with hs
    obtain ⟨c, hcs⟩ : ∃ c, s.head? = some c := by
      cases hse : s with
      | nil => exact absurd hse h1
      | cons a as => exact ⟨a, rfl⟩
    have hcw : isWS c = false := head_trimL_not_ws (by rw [← hs]; exact hcs)
    have hchash : c ≠ '#' := by
      intro heq
      subst heq
      exact h2 hcs
    refine ⟨⟨?_, ?_, lowerStr_idem _, ?_⟩, ?_⟩
    · have := takeWhile_noWS_head hcs hcw
      intro hemp
      simp only [lowerStr] at hemp
      rw [List.map_eq_nil_iff] at hemp
      rw [hemp] at this
      simp at this
    · intro d hd
      simp only [lowerStr, List.mem_map] at hd
      obtain ⟨a, ha, rfl⟩ := hd
      exact lowerC_ws a (mem_takeWhile_noWS ha)
    · have hh := takeWhile_noWS_head hcs hcw
      cases ht : s.takeWhile (fun c => !(isWS c)) with
      | nil => rw [ht] at hh; simp at hh
      | cons a as =>
        rw [ht] at hh
        simp only [List.head?_cons, Option.some_inj] at hh
        subst hh
        simp only [lowerStr, List.map_cons, List.head?_cons, ne_eq, Option.some_inj]
        exact lowerC_hash _ hchash
    · intro d hd
      exact dropWhile_head_not isWS _ hd

/-! ### How dumped lines classify -/

theorem classify_nil : classify [] = .blank := by decide

theorem classify_hostDump (host : Str) (h : trimB host = host) :
    classify (hostWord ++ ' ' :: host) = .hostLine host := by
  have htl : trimL (hostWord ++ ' ' :: host) = hostWord ++ ' ' :: host := by
    simp [hostWord, trimL, List.dropWhile_cons, show isWS 'H' = false from by decide]
  unfold classify
  rw [htl]
  rw [if_neg (by simp [hostWord]), if_neg (by simp [hostWord]),
    if_pos (by constructor <;> (simp [hostWord, wordEnds]; try decide))]
  simp only [hostWord, List.cons_append, List.nil_append, List.drop_succ_cons, List.drop_zero]
  rw [trimB_cons_ws ' ' host (by decide), h]

theorem takeWhile_noWS_of_all {k : Str} (hk : ∀ c ∈ k, isWS c = false) (v : Str) :
    (k ++ ' ' :: v).takeWhile (fun c => !(isWS c)) = k := by
  induction k with
  | nil => simp [List.takeWhile_cons, show isWS ' ' = true from by decide]
  | cons a as ih =>
    have ha : isWS a = false := hk a (by simp)
    simp only [List.cons_append, List.takeWhile_cons, ha]
    simp only [Bool.not_false, if_pos]
    rw [ih (fun c hc => hk c (by simp [hc]))]

theorem dropWhile_noWS_of_all {k : Str} (hk : ∀ c ∈ k, isWS c = false) (v : Str) :
    (k ++ ' ' :: v).dropWhile (fun c => !(isWS c)) = ' ' :: v := by
  induction k with
  | nil => simp [List.dropWhile_cons, show isWS ' ' = true from by decide]
  | cons a as ih =>
    have ha : isWS a = false := hk a (by simp)
    simp only [List.cons_append, List.dropWhile_cons, ha]
    simp only [Bool.not_false, if_pos]
    exact ih (fun c hc => hk c (by simp [hc]))

theorem classify_optDump {k v : Str} (hk : WFKey k) (hv : WFVal v) :
    classify (mkOptLine k v) = .optionLine k v := by
  obtain ⟨hk1, hk2, hk3, hk4⟩ := hk
  obtain ⟨c, k', rfl⟩ : ∃ c k', k = c :: k' := by
    cases k with
    | nil => exact absurd rfl hk1
    | cons c k' => exact ⟨c, k', rfl⟩
  have hcw : isWS c = false := hk2 c (by simp)
  have htl : trimL (mkOptLine (c :: k') v) = (c :: k') ++ ' ' :: v := by
    simp [mkOptLine, indent4, trimL, List.dropWhile_cons, hcw,
      show isWS ' ' = true from by decide]
  have hchash : c ≠ '#' := by
    intro heq
    rw [heq] at hk4
    simp at hk4
  have hcH : c ≠ 'H' := by
    intro heq
    have := congrArg List.head? hk3
    simp only [lowerStr, List.map_cons, List.head?_cons, Option.some_inj] at this
    rw [heq] at this
    revert this
    decide
  unfold classify
  rw [htl]
  rw [if_neg (by simp), if_neg (by simpa using hchash)]
  rw [if_neg ?hhost]
  case hhost =>
    intro hand
    apply hcH
    have := congrArg List.head? hand.1
    cases k' <;> (simp [hostWord] at this; exact this)
  rw [takeWhile_noWS_of_all hk2 v, dropWhile_noWS_of_all hk2 v]
  have hvdrop : v.dropWhile isWS = v := by
    cases hve : v with
    | nil => simp
    | cons a as =>
      have := hv a (by rw [hve]; rfl)
      simp [List.dropWhile_cons, this]
  rw [List.dropWhile_cons]
  rw [if_pos (by decide)]
  rw [hvdrop, hk3]

/-! ### Replaying option occurrences -/

theorem keysOf_cons (k' : Str) (ov : OptionValue) (os : Options) :
    keysOf ((k', ov) :: os) = k' :: keysOf os := rfl

theorem not_mem_keys_split {k k' : Str} {ov : OptionValue} {os : Options}
    (h : k ∉ keysOf ((k', ov) :: os)) : k' ≠ k ∧ k ∉ keysOf os := by
  rw [keysOf_cons] at h
  constructor
  · intro heq
    exact h (heq ▸ List.mem_cons_self _ _)
  · intro hm
    exact h (List.mem_cons_of_mem _ hm)

theorem addOptList_fresh {os : Options} {k : Str} (h : k ∉ keysOf os) (v : Str) :
    addOptList os k v = os ++ [(k, .scalar v)] := by
  induction os with
  | nil => rfl
  | cons p rest ih =>
    obtain ⟨k', ov⟩ := p
    obtain ⟨hne, hrest⟩ := not_mem_keys_split h
    simp only [addOptList, if_neg hne, List.cons_append, List.append_eq]
    rw [ih hrest]

theorem addOptList_last_scalar {os : Options} {k : Str} (h : k ∉ keysOf os) (w v : Str) :
    addOptList (os ++ [(k, .scalar w)]) k v = os ++ [(k, .list [w, v])] := by
  induction os with
  | nil => simp [addOptList]
  | cons p rest ih =>
    obtain ⟨k', ov⟩ := p
    obtain ⟨hne, hrest⟩ := not_mem_keys_split h
    simp only [List.cons_append, addOptList, if_neg hne, List.append_eq]
    rw [ih hrest]

theorem addOptList_last_list {os : Options} {k : Str} (h : k ∉ keysOf os) (ws : List Str)
    (v : Str) :
    addOptList (os ++ [(k, .list ws)]) k v = os ++ [(k, .list (ws ++ [v]))] := by
  induction os with
  | nil => simp [addOptList]
  | cons p rest ih =>
    obtain ⟨k', ov⟩ := p
    obtain ⟨hne, hrest⟩ := not_mem_keys_split h
    simp only [List.cons_append, addOptList, if_neg hne, List.append_eq]
    rw [ih hrest]

theorem keysOf_addOptList_mem {os : Options} {k : Str} (h : k ∈ keysOf os) (v : Str) :
    keysOf (addOptList os k v) = keysOf os := by
  induction os with
  | nil => simp [keysOf] at h
  | cons p rest ih =>
    obtain ⟨k', ov⟩ := p
    by_cases he : k' = k
    · subst he
      cases ov <;> simp [addOptList, keysOf]
    · rw [keysOf_cons, List.mem_cons] at h
      rcases h with h | h
      · exact absurd h.symm he
      · simp only [addOptList, if_neg he, keysOf_cons]
        rw [show keysOf (addOptList rest k v) = keysOf rest from ih h]

theorem addOptList_pairsWF {os : Options} {k v : Str}
    (hos : ∀ p ∈ os, WFKey p.1 ∧ WFOptVal p.2) (hk : WFKey k) (hv : WFVal v) :
    ∀ p ∈ addOptList os k v, WFKey p.1 ∧ WFOptVal p.2 := by
  induction os with
  | nil =>
    intro p hp
    simp only [addOptList, List.mem_singleton] at hp
    subst hp
    exact ⟨hk, hv⟩
  | cons q rest ih =>
    obtain ⟨k', ov⟩ := q
    by_cases he : k' = k
    · subst he
      intro p hp
      cases ov with
      | scalar w =>
        simp only [addOptList, eq_self_iff_true, if_true] at hp
        rcases List.mem_cons.1 hp with h | h
        · subst h
          refine ⟨(hos (k', OptionValue.scalar w) (List.mem_cons_self _ _)).1, by simp, ?_⟩
          intro x hx
          rcases List.mem_cons.1 hx with h | h
          · subst h
            exact (hos (k', OptionValue.scalar x) (List.mem_cons_self _ _)).2
          · rcases List.mem_singleton.1 h with rfl
            exact hv
        · exact hos _ (List.mem_cons_of_mem _ h)
      | list ws =>
        simp only [addOptList, eq_self_iff_true, if_true] at hp
        rcases List.mem_cons.1 hp with h | h
        · subst h
          obtain ⟨hlen, hvals⟩ := (hos (k', OptionValue.list ws) (List.mem_cons_self _ _)).2
          refine ⟨(hos (k', OptionValue.list ws) (List.mem_cons_self _ _)).1, ?_, ?_⟩
          · simp only [List.length_append, List.length_singleton]
            omega
          · intro x hx
            rcases List.mem_append.1 hx with h | h
            · exact hvals x h
            · rcases List.mem_singleton.1 h with rfl
              exact hv
        · exact hos _ (List.mem_cons_of_mem _ h)
    · intro p hp
      simp only [addOptList, if_neg he] at hp
      rcases List.mem_cons.1 hp with h | h
      · subst h
        exact hos _ (List.mem_cons_self _ _)
      · exact ih (fun q hq => hos q (List.mem_cons_of_mem _ hq)) _ h

theorem WFOpts_addOptList {os : Options} {k v : Str} (hos : WFOpts os) (hk : WFKey k)
    (hv : WFVal v) : WFOpts (addOptList os k v) := by
  obtain ⟨hpairs, hnodup⟩ := hos
  refine ⟨addOptList_pairsWF hpairs hk hv, ?_⟩
  by_cases hin : k ∈ keysOf os
  · rw [keysOf_addOptList_mem hin v]
    exact hnodup
  · rw [addOptList_fresh hin v]
    simp only [keysOf, List.map_append, List.map_singleton]
    rw [List.nodup_append]
    refine ⟨hnodup, List.nodup_singleton _, ?_⟩
    intro a ha hb
    rcases List.mem_singleton.1 hb with rfl
    exact hin ha

theorem keysOf_append (a b : Options) : keysOf (a ++ b) = keysOf a ++ keysOf b := by
  simp [keysOf]

theorem loadAux_cons (l : Str) (ls : List Str) (cur : Option HostRec) :
    loadAux (l :: ls) cur =
      match classify l with
      | .blank => flush cur ++ .empty :: loadAux ls none
      | .commentLine c => flush cur ++ .comment c :: loadAux ls none
      | .hostLine h => flush cur ++ loadAux ls (some ⟨h, []⟩)
      | .optionLine k v =>
        match cur with
        | none => loadAux ls none
        | some e => loadAux ls (some (addOpt e k v)) := rfl

theorem loadAux_step_blank {l : Str} (hcl : classify l = .blank) (ls : List Str)
    (cur : Option HostRec) :
    loadAux (l :: ls) cur = flush cur ++ .empty :: loadAux ls none := by
  rw [loadAux_cons, hcl]

theorem loadAux_step_comment {l c : Str} (hcl : classify l = .commentLine c)
    (ls : List Str) (cur : Option HostRec) :
    loadAux (l :: ls) cur = flush cur ++ .comment c :: loadAux ls none := by
  rw [loadAux_cons, hcl]

theorem loadAux_step_host {l h : Str} (hcl : classify l = .hostLine h) (ls : List Str)
    (cur : Option HostRec) :
    loadAux (l :: ls) cur = flush cur ++ loadAux ls (some ⟨h, []⟩) := by
  rw [loadAux_cons, hcl]

theorem loadAux_step_opt_some {l k v : Str} (hcl : classify l = .optionLine k v)
    (ls : List Str) (e : HostRec) :
    loadAux (l :: ls) (some e) = loadAux ls (some (addOpt e k v)) := by
  rw [loadAux_cons, hcl]

theorem loadAux_step_opt_none {l k v : Str} (hcl : classify l = .optionLine k v)
    (ls : List Str) :
    loadAux (l :: ls) none = loadAux ls none := by
  rw [loadAux_cons, hcl]

theorem classify_commentLine_self {l c : Str} (hc : classify l = .commentLine c) :
    c = l := by
  unfold classify at hc
  split_ifs at hc
  all_goals injection hc with hh
  all_goals exact hh.symm

theorem loadAux_replay_list {k : Str} (hk : WFKey k) (vs : List Str)
    (hvs : ∀ v ∈ vs, WFVal v) (tail : List Str) (h : Str) (acc : Options)
    (hacc : k ∉ keysOf acc) (ws : List Str) :
    loadAux (vs.map (mkOptLine k) ++ tail) (some ⟨h, acc ++ [(k, .list ws)]⟩)
      = loadAux tail (some ⟨h, acc ++ [(k, .list (ws ++ vs))]⟩) := by
  induction vs generalizing ws with
  | nil => simp
  | cons v vs' ih =>
    simp only [List.map_cons, List.cons_append]
    rw [loadAux_cons, classify_optDump hk (hvs v (by simp))]
    show loadAux (vs'.map (mkOptLine k) ++ tail)
        (some (addOpt ⟨h, acc ++ [(k, .list ws)]⟩ k v)) = _
    rw [show addOpt ⟨h, acc ++ [(k, .list ws)]⟩ k v
          = ⟨h, acc ++ [(k, .list (ws ++ [v]))]⟩ from by
        simp [addOpt, addOptList_last_list hacc]]
    rw [ih (fun x hx => hvs x (by simp [hx])) (ws ++ [v])]
    simp

theorem loadAux_replay {os : Options} (hpairs : ∀ p ∈ os, WFKey p.1 ∧ WFOptVal p.2)
    (hnodup : (keysOf os).Nodup) (tail : List Str) (h : Str) (acc : Options)
    (hdisj : ∀ kk ∈ keysOf os, kk ∉ keysOf acc) :
    loadAux (catMap optLinesFor os ++ tail) (some ⟨h, acc⟩)
      = loadAux tail (some ⟨h, acc ++ os⟩) := by
  induction os generalizing acc with
  | nil => simp [catMap]
  | cons p os' ih =>
    obtain ⟨k, ov⟩ := p
    have hkWF : WFKey k := (hpairs _ (List.mem_cons_self _ _)).1
    have hkacc : k ∉ keysOf acc := hdisj k (by rw [keysOf_cons]; exact List.mem_cons_self _ _)
    have hknotos' : k ∉ keysOf os' := by
      rw [keysOf_cons] at hnodup
      exact (List.nodup_cons.1 hnodup).1
    have hnodup' : (keysOf os').Nodup := by
      rw [keysOf_cons] at hnodup
      exact (List.nodup_cons.1 hnodup).2
    have hpairs' : ∀ p ∈ os', WFKey p.1 ∧ WFOptVal p.2 :=
      fun q hq => hpairs q (List.mem_cons_of_mem _ hq)
    have hdisj' : ∀ (x : OptionValue), ∀ kk ∈ keysOf os',
        kk ∉ keysOf (acc ++ [(k, x)]) := by
      intro x kk hkk
      rw [keysOf_append]
      intro hmem
      rcases List.mem_append.1 hmem with hmem | hmem
      · exact hdisj kk (by rw [keysOf_cons]; exact List.mem_cons_of_mem _ hkk) hmem
      · rcases List.mem_singleton.1 hmem with rfl
        exact hknotos' hkk
    cases ov with
    | scalar v =>
      have hvWF : WFVal v := (hpairs _ (List.mem_cons_self _ _)).2
      simp only [catMap, optLinesFor, List.singleton_append, List.cons_append,
        List.append_assoc]
      rw [loadAux_cons, classify_optDump hkWF hvWF]
      show loadAux (catMap optLinesFor os' ++ tail) (some (addOpt ⟨h, acc⟩ k v)) = _
      rw [show addOpt ⟨h, acc⟩ k v = ⟨h, acc ++ [(k, .scalar v)]⟩ from by
          simp [addOpt, addOptList_fresh hkacc]]
      rw [ih hpairs' hnodup' _ (hdisj' (.scalar v))]
      simp
    | list vs =>
      have hvWF : WFOptVal (.list vs) := (hpairs _ (List.mem_cons_self _ _)).2
      obtain ⟨hlen, hvals⟩ := hvWF
      obtain ⟨v1, v2, rest, rfl⟩ : ∃ v1 v2 rest, vs = v1 :: v2 :: rest := by
        cases vs with
        | nil => simp at hlen
        | cons v1 vs' =>
          cases vs' with
          | nil => simp at hlen
          | cons v2 rest => exact ⟨v1, v2, rest, rfl⟩
      simp only [catMap, optLinesFor, List.map_cons, List.cons_append, List.append_assoc]
      rw [loadAux_cons, classify_optDump hkWF (hvals v1 (by simp))]
      show loadAux _ (some (addOpt ⟨h, acc⟩ k v1)) = _
      rw [show addOpt ⟨h, acc⟩ k v1 = ⟨h, acc ++ [(k, .scalar v1)]⟩ from by
          simp [addOpt, addOptList_fresh hkacc]]
      rw [loadAux_cons, classify_optDump hkWF (hvals v2 (by simp))]
      show loadAux _ (some (addOpt ⟨h, acc ++ [(k, .scalar v1)]⟩ k v2)) = _
      rw [show addOpt ⟨h, acc ++ [(k, .scalar v1)]⟩ k v2
            = ⟨h, acc ++ [(k, .list [v1, v2])]⟩ from by
          simp [addOpt, addOptList_last_scalar hkacc]]
      rw [loadAux_replay_list hkWF rest (fun x hx => hvals x (by simp [hx])) _ h acc
        hkacc [v1, v2]]
      show loadAux _ (some ⟨h, acc ++ [(k, .list (v1 :: v2 :: rest))]⟩) = _
      rw [ih hpairs' hnodup' _ (hdisj' (.list (v1 :: v2 :: rest)))]
      simp

/-- The first line of `tail` does not continue an open stanza. -/
def FirstStops : List Str → Prop
  | [] => True
  | l :: _ => (classify l).isOpt = false

/-- Flushing an open stanza before a stopping line. -/
theorem loadAux_flush (tail : List Str) (e : HostRec) (hstop : FirstStops tail) :
    loadAux tail (some e) = .entry e :: loadAux tail none := by
  cases tail with
  | nil => rfl
  | cons l ls =>
    cases hcl : classify l with
    | blank => rw [loadAux_cons, hcl, loadAux_cons, hcl]; rfl
    | commentLine c => rw [loadAux_cons, hcl, loadAux_cons, hcl]; rfl
    | hostLine hh => rw [loadAux_cons, hcl, loadAux_cons, hcl]; rfl
    | optionLine k v =>
      exfalso
      have hstop' : (classify l).isOpt = false := hstop
      rw [hcl] at hstop'
      simp [LineKind.isOpt] at hstop'

/-- The first dumped line of a well-formed sequence never continues a stanza. -/
theorem dump_FirstStops {rs : List Record} (hwf : WFRecs rs) :
    FirstStops (dumpLines rs) := by
  cases rs with
  | nil => trivial
  | cons r rest =>
    have hr : WFRec r := hwf r (List.mem_cons_self _ _)
    cases r with
    | entry e =>
      obtain ⟨htrim, _⟩ := hr
      have hdl : dumpLines (Record.entry e :: rest)
          = (hostWord ++ ' ' :: e.host)
            :: (catMap optLinesFor e.options ++ dumpLines rest) := by
        simp [dumpLines, catMap, recLines]
      rw [hdl]
      show (classify (hostWord ++ ' ' :: e.host)).isOpt = false
      rw [classify_hostDump e.host htrim]
      rfl
    | comment c =>
      have hdl : dumpLines (Record.comment c :: rest) = c :: dumpLines rest := by
        simp [dumpLines, catMap, recLines]
      rw [hdl]
      show (classify c).isOpt = false
      rw [hr]
      rfl
    | empty =>
      have hdl : dumpLines (Record.empty :: rest) = [] :: dumpLines rest := by
        simp [dumpLines, catMap, recLines]
      rw [hdl]
      show (classify ([] : Str)).isOpt = false
      rw [classify_nil]
      rfl

/-- Re-loading the dump of a well-formed Record sequence gives it back. -/
theorem loadAux_dumpLines {rs : List Record} (hwf : WFRecs rs) :
    loadAux (dumpLines rs) none = rs := by
  induction rs with
  | nil => rfl
  | cons r rest ih =>
    have hr : WFRec r := hwf r (List.mem_cons_self _ _)
    have hrest : WFRecs rest := fun x hx => hwf x (List.mem_cons_of_mem _ hx)
    cases r with
    | entry e =>
      obtain ⟨htrim, hpairs, hnodup⟩ := hr
      have hdl : dumpLines (Record.entry e :: rest)
          = (hostWord ++ ' ' :: e.host)
            :: (catMap optLinesFor e.options ++ dumpLines rest) := by
        simp [dumpLines, catMap, recLines]
      rw [hdl, loadAux_step_host (classify_hostDump e.host htrim)]
      rw [show flush none = [] from rfl, List.nil_append]
      rw [loadAux_replay hpairs hnodup (dumpLines rest) e.host []
        (by intro kk hkk; simp [keysOf])]
      rw [List.nil_append]
      rw [loadAux_flush (dumpLines rest) ⟨e.host, e.options⟩ (dump_FirstStops hrest)]
      rw [ih hrest]
    | comment c =>
      have hdl : dumpLines (Record.comment c :: rest) = c :: dumpLines rest := by
        simp [dumpLines, catMap, recLines]
      rw [hdl, loadAux_step_comment hr]
      rw [show flush none = [] from rfl, List.nil_append]
      rw [ih hrest]
    | empty =>
      have hdl : dumpLines (Record.empty :: rest) = [] :: dumpLines rest := by
        simp [dumpLines, catMap, recLines]
      rw [hdl, loadAux_step_blank classify_nil]
      rw [show flush none = [] from rfl, List.nil_append]
      rw [ih hrest]

/-- Invariant carried for the open stanza while loading. -/
def WFCur : Option HostRec → Prop
  | none => True
  | some e => trimB e.host = e.host ∧ WFOpts e.options

/-- Everything the loader produces is well-formed. -/
theorem loadAux_WF (ls : List Str) (cur : Option HostRec) (hcur : WFCur cur) :
    WFRecs (loadAux ls cur) := by
  induction ls generalizing cur with
  | nil =>
    intro r hr
    cases cur with
    | none => simp [loadAux, flush] at hr
    | some e =>
      simp only [loadAux, flush, List.mem_singleton] at hr
      subst hr
      exact hcur
  | cons l ls ih =>
    have hflush : ∀ r ∈ flush cur, WFRec r := by
      intro r hr
      cases cur with
      | none => simp [flush] at hr
      | some e =>
        simp only [flush, List.mem_singleton] at hr
        subst hr
        exact hcur
    intro r hr
    rw [loadAux_cons] at hr
    cases hcl : classify l with
    | blank =>
      rw [hcl] at hr
      rcases List.mem_append.1 hr with h | h
      · exact hflush r h
      · rcases List.mem_cons.1 h with h | h
        · subst h; trivial
        · exact ih none trivial r h
    | commentLine c =>
      rw [hcl] at hr
      rcases List.mem_append.1 hr with h | h
      · exact hflush r h
      · rcases List.mem_cons.1 h with h | h
        · subst h
          show classify c = .commentLine c
          have hc2 := classify_commentLine_self hcl
          subst hc2
          exact hcl
        · exact ih none trivial r h
    | hostLine hh =>
      rw [hcl] at hr
      rcases List.mem_append.1 hr with h | h
      · exact hflush r h
      · refine ih (some ⟨hh, []⟩) ⟨classify_hostLine_trim hcl, ?_, ?_⟩ r h
        · intro p hp; simp at hp
        · simp [keysOf]
    | optionLine k v =>
      rw [hcl] at hr
      cases cur with
      | none => exact ih none trivial r hr
      | some e =>
        obtain ⟨hkWF, hvWF⟩ := classify_optionLine_WF hcl
        exact ih (some (addOpt e k v))
          ⟨hcur.1, WFOpts_addOptList hcur.2 hkWF hvWF⟩ r hr

/-- Round trip: loading the dump of any loaded sequence is the identity. -/
theorem load_dump_load (ls : List Str) :
    loadLines (dumpLines (loadLines ls)) = loadLines ls :=
  loadAux_dumpLines (loadAux_WF ls none trivial)

/-! ## Regular expressions

Modelled from the spec: regex-mode `update_host` "compiles `name_or_pattern`
as a regular expression and applies it with prefix semantics (the pattern
must match starting at position 0 of the host string, not require a full
match)". The model supports the sublanguage needed by the spec examples:
literal characters, `.`, character classes with ranges and negation, and
the `*`, `+`, `?` quantifiers; other metacharacters and malformed patterns
(such as an unterminated class) fail to compile, as in Python `re`. -/

/-- One alternative inside a character class. -/
inductive ClsItem where
  | single (c : Char)
  | range (a b : Char)
deriving DecidableEq

/-- An atom of a pattern. -/
inductive Atom where
  | lit (c : Char)
  | dot
  | cls (neg : Bool) (items : List ClsItem)
deriving DecidableEq

/-- A quantifier applied to an atom. -/
inductive Quant where
  | one
  | star
  | plus
  | opt
deriving DecidableEq

/-- A compiled pattern: a sequence of quantified atoms. -/
abbrev RePat := List (Atom × Quant)

/-- Metacharacters the model does not support as the start of an atom
(grouping, alternation, anchors, escapes) and quantifiers with no atom
before them: compilation fails on these, like Python `re` errors. -/
def badAtomStart : List Char := ['(', ')', '|', '^', '$', '\\', '*', '+', '?']

/-- Parse the body of a character class, after `[` (and any `^`). -/
def parseCls : Str → Option (List ClsItem × Str)
  | [] => none
  | ']' :: rest => some ([], rest)
  | a :: '-' :: b :: rest =>
    if b = ']' then
      (parseCls ('-' :: b :: rest)).map (fun p => (.single a :: p.1, p.2))
    else
      (parseCls rest).map (fun p => (.range a b :: p.1, p.2))
  | c :: rest => (parseCls rest).map (fun p => (.single c :: p.1, p.2))

/-- Parse one atom; consumes at least one character. -/
def parseAtom : Str → Option (Atom × Str)
  | [] => none
  | '[' :: '^' :: rest => (parseCls rest).map (fun p => (.cls true p.1, p.2))
  | '[' :: rest => (parseCls rest).map (fun p => (.cls false p.1, p.2))
  | '.' :: rest => some (.dot, rest)
  | c :: rest => if c ∈ badAtomStart then none else some (.lit c, rest)

/-- Parse an optional quantifier character. -/
def parseQuant : Str → Quant × Str
  | '*' :: rest => (.star, rest)
  | '+' :: rest => (.plus, rest)
  | '?' :: rest => (.opt, rest)
  | s => (.one, s)

/-- Fuel-indexed pattern parser; each item consumes at least one character,
so `length + 1` fuel always suffices. -/
def parseItems : Nat → Str → Option RePat
  | _, [] => some []
  | 0, _ :: _ => none
  | fuel + 1, s =>
    match parseAtom s with
    | none => none
    | some (a, r) =>
      let q := parseQuant r
      (parseItems fuel q.2).map (fun items => (a, q.1) :: items)

/-- Modelled from the spec: compile a pattern string, failing (like
Python `re.error`) on patterns outside the supported sublanguage. -/
def compile (pat : Str) : Option RePat := parseItems (pat.length + 1) pat

/-- Does one atom match one character? Python `.` does not match a newline. -/
def atomMatch : Atom → Char → Bool
  | .lit d, c => c = d
  | .dot, c => !(c = '\n')
  | .cls neg items, c =>
    let hit := items.any (fun it =>
      match it with
      | .single d => c = d
      | .range a b => a ≤ c && c ≤ b)
    if neg then !hit else hit

/-- Fuel-indexed backtracking matcher for a pattern against a prefix of the
input; every recursive call strictly decreases `items.length + s.length`,
so `items.length + s.length + 1` fuel explores the full search space. -/
def matchFuel : Nat → RePat → Str → Bool
  | 0, _, _ => false
  | _ + 1, [], _ => true
  | f + 1, (a, .one) :: rest, s =>
    match s with
    | [] => false
    | c :: s' => atomMatch a c && matchFuel f rest s'
  | f + 1, (a, .opt) :: rest, s =>
    matchFuel f rest s ||
      (match s with
       | [] => false
       | c :: s' => atomMatch a c && matchFuel f rest s')
  | f + 1, (a, .star) :: rest, s =>
    matchFuel f rest s ||
      (match s with
       | [] => false
       | c :: s' => atomMatch a c && matchFuel f ((a, .star) :: rest) s')
  | f + 1, (a, .plus) :: rest, s =>
    match s with
    | [] => false
    | c :: s' => atomMatch a c && matchFuel f ((a, .star) :: rest) s'

/-- Modelled from the spec: Python `re.match` prefix semantics — the
compiled pattern must match starting at position 0 of `s`, without having
to consume all of `s`. -/
def matchAt (re : RePat) (s : Str) : Bool :=
  matchFuel (re.length + s.length + 1) re s

/-! ## Option payloads and the Host Store

`getOptions`, `quoteOptions`, `isHostIn`, `addEntry`, `editEntry` and
`listEntries` are translated from `storm/__init__.py` (present in the
snapshot); `addHost`, `updateHost` and `searchHost` are modelled from the
spec since the parser module is not in the snapshot. -/

/-- The `DELETED_SIGN` sentinel string of `storm/__init__.py`. -/
def DELETED_SIGN : Str := ['D', 'E', 'L', 'E', 'T', 'E', 'D']

/-- A value of the options dict built by `Storm.get_options`: either an
ordinary string value, or the `deleted_fields` list of directive names. -/
inductive UpdateVal where
  | val (v : Str)
  | dfs (ks : List Str)
deriving DecidableEq

/-- The options dict passed to the store: insertion-ordered, unique keys. -/
abbrev Payload := List (Str × UpdateVal)

/-- Python dict assignment `d[k] = v`: update in place, else append. -/
def dictSet (p : Payload) (k : Str) (v : UpdateVal) : Payload :=
  if k ∈ p.map Prod.fst then
    p.map (fun q => if q.1 = k then (q.1, v) else q)
  else p ++ [(k, v)]

/-- Python dict lookup `d.get(k)`. -/
def dictLookup (k : Str) : Payload → Option UpdateVal
  | [] => none
  | (k', v) :: rest => if k' = k then some v else dictLookup k rest

/-- The quote character test for `value.strip('"')`. -/
def isQuote (c : Char) : Bool := c = '"'

/-- Python `value.strip('"')`: remove every leading and trailing `"`. -/
def stripQuotes (s : Str) : Str := (s.dropWhile isQuote).rdropWhile isQuote

/-- One application of the quoting normalization of `Storm._quote_options`:
strip any surrounding quote characters, then wrap in one pair of quotes. -/
def quoteVal (s : Str) : Str := '"' :: (stripQuotes s ++ ['"'])

/-- The single reserved key `keys_should_be_quoted = ["identityfile"]`. -/
def identityfileK : Str := ['i', 'd', 'e', 'n', 't', 'i', 't', 'y', 'f', 'i', 'l', 'e']

/-- Key `hostname`. -/
def hostnameK : Str := ['h', 'o', 's', 't', 'n', 'a', 'm', 'e']

/-- Key `user`. -/
def userK : Str := ['u', 's', 'e', 'r']

/-- Key `port`. -/
def portK : Str := ['p', 'o', 'r', 't']

/-- Key `deleted_fields`. -/
def deletedFieldsK : Str :=
  ['d', 'e', 'l', 'e', 't', 'e', 'd', '_', 'f', 'i', 'e', 'l', 'd', 's']

/-- `Storm._quote_options` translated from the source: the one reserved key
`identityfile`, when present with a string value, is stripped of
surrounding quotes and wrapped in exactly one pair. -/
def quoteOptions (p : Payload) : Payload :=
  p.map (fun q =>
    if q.1 = identityfileK then
      match q.2 with
      | .val s => (q.1, .val (quoteVal s))
      | d => (q.1, d)
    else q)

/-- One custom option of `Storm.get_options`: a string containing `=` is
split at the first `=`, its key lowercased; a string without `=` is
ignored. Translated from the source. -/
def applyCustom (os : Payload) (c : Str) : Payload :=
  if '=' ∈ c then
    dictSet os (lowerStr (c.takeWhile (fun x => !(x = '='))))
      (.val ((c.dropWhile (fun x => !(x = '='))).tail))
  else os

/-- The options dict of `Storm.get_options` before custom options and
quoting: `hostname`, `user`, `port`, and then either the `deleted_fields`
instruction (for the `DELETED_SIGN` sentinel), the `identityfile` key (for
a truthy id file), or nothing (`None` or the falsy empty string). -/
def baseOptions (host user port : Str) (id_file : Option Str) : Payload :=
  let o1 : Payload := [(hostnameK, .val host), (userK, .val user), (portK, .val port)]
  if id_file = some DELETED_SIGN then
    dictSet o1 deletedFieldsK (.dfs [identityfileK])
  else
    match id_file with
    | some s => if s = [] then o1 else dictSet o1 identityfileK (.val s)
    | none => o1

/-- `Storm.get_options` translated from the source: the base dict, then
each custom option in order, then the quoting normalization. -/
def getOptions (host user port : Str) (id_file : Option Str) (customs : List Str) :
    Payload :=
  quoteOptions (customs.foldl applyCustom (baseOptions host user port id_file))

/-- Error kinds of spec section 7, as raised by the store layer. -/
inductive StormErr where
  | hostAlreadyExists
  | hostNotFound
  | invalidPattern
deriving DecidableEq

deriving instance DecidableEq for Except

/-- The entry options stored for a payload: ordinary values in order;
building an entry from a payload ignores a `deleted_fields` instruction
(it only means something for an update). -/
def payloadToOptions : Payload → Options
  | [] => []
  | (k, .val v) :: rest => (k, .scalar v) :: payloadToOptions rest
  | (_, .dfs _) :: rest => payloadToOptions rest

/-- Overwrite (never append to) the value of directive `k`. -/
def optSet (os : Options) (k : Str) (v : OptionValue) : Options :=
  match os with
  | [] => [(k, v)]
  | (k', w) :: rest => if k' = k then (k', v) :: rest else (k', w) :: optSet rest k v

/-- Remove directive `k` entirely from the mapping. -/
def optDel (os : Options) (k : Str) : Options := os.filter (fun q => !(q.1 = k))

/-- Modelled from the spec: merge semantics of `update_host` — the
`deleted_fields` sentinel key removes the named directives; every other
key overwrites (never merges) the existing value. -/
def applyPayload (p : Payload) (os : Options) : Options :=
  p.foldl
    (fun acc q =>
      match q.2 with
      | .val v => optSet acc q.1 (.scalar v)
      | .dfs ks => ks.foldl optDel acc)
    os

/-- Apply an update payload to a record (entries only). -/
def updRecord (p : Payload) : Record → Record
  | .entry e => .entry ⟨e.host, applyPayload p e.options⟩
  | r => r

/-- Does a compiled regex select this record? Prefix match on the host. -/
def entryMatches (re : RePat) (r : Record) : Bool :=
  r.isEntry && matchAt re r.hostOf

/-- Update the first entry whose host exactly equals `name`. -/
def updFirst (name : Str) (p : Payload) : List Record → Option (List Record)
  | [] => none
  | r :: rs =>
    if r.isEntry && decide (r.hostOf = name) then some (updRecord p r :: rs)
    else (updFirst name p rs).map (fun t => r :: t)

/-- Modelled from the spec: `add_host` appends a new HostEntry at the end
of the sequence; it fails with `HostAlreadyExists` when an entry whose
host exactly equals `name` already exists (exact string equality only). -/
def addHost (seq : List Record) (name : Str) (opts : Options) :
    Except StormErr (List Record) :=
  if seq.any (fun r => r.isEntry && decide (r.hostOf = name)) then
    .error .hostAlreadyExists
  else .ok (seq ++ [.entry ⟨name, opts⟩])

/-- Modelled from the spec: `update_host`. With `use_regex` the pattern is
compiled (failing with the distinct `InvalidPattern` error when it does not
compile) and applied with prefix semantics to every entry host; all
matching entries are updated, `HostNotFound` if none match. Without
`use_regex`, the first exactly-equal entry is updated. -/
def updateHost (nameOrPat : Str) (p : Payload) (useRegex : Bool)
    (seq : List Record) : Except StormErr (List Record) :=
  if useRegex then
    match compile nameOrPat with
    | none => .error .invalidPattern
    | some re =>
      if seq.any (entryMatches re) then
        .ok (seq.map (fun r => if entryMatches re r then updRecord p r else r))
      else .error .hostNotFound
  else
    match updFirst nameOrPat p seq with
    | none => .error .hostNotFound
    | some seq' => .ok seq'

/-- Modelled from the spec: `search_host` returns every HostEntry whose
host string contains the substring (case-sensitive, unanchored), over the
live in-memory sequence. -/
def searchHost (sub : Str) (seq : List Record) : List Record :=
  seq.filter (fun r => r.isEntry && strContains sub r.hostOf)

/-! ## The Storm store layer (translated from `storm/__init__.py`) -/

/-- Storm's state: the in-memory Record sequence, and the persisted file. -/
structure StormState where
  config_data : List Record
  fileLines : List Str
deriving DecidableEq

/-- `ConfigParser.write_to_ssh_config`: persist the dump, or leave the file
untouched when `dump` is absent. -/
def writeToSshConfig (st : StormState) : StormState :=
  { st with fileLines := writeToFile st.config_data st.fileLines }

/-- `Storm.is_host_in` (exact branch, `regexp_match=False`) translated from
the source: scans `config_data` comparing each record's host with `==`. -/
def isHostIn (st : StormState) (host : Str) : Bool :=
  st.config_data.any (fun r => decide (r.hostOf = host))

/-- `Storm.add_entry` translated from the source: duplicate names are
rejected through `is_host_in` (exact string equality), then the option
payload is built, the host appended, and the file written. -/
def addEntry (st : StormState) (name host user port : Str) (id_file : Option Str)
    (customs : List Str) : Except StormErr StormState :=
  if isHostIn st name then .error .hostAlreadyExists
  else
    match addHost st.config_data name
        (payloadToOptions (getOptions host user port id_file customs)) with
    | .error e => .error e
    | .ok seq => .ok (writeToSshConfig { st with config_data := seq })

/-- `Storm.edit_entry` translated from the source: requires the name to
exist, rebuilds the option payload (including the `deleted_fields`
translation of the DELETED sentinel) and updates exactly that entry. -/
def editEntry (st : StormState) (name host user port : Str) (id_file : Option Str)
    (customs : List Str) : Except StormErr StormState :=
  if !(isHostIn st name) then .error .hostNotFound
  else
    match updateHost name (getOptions host user port id_file customs) false
        st.config_data with
    | .error e => .error e
    | .ok seq => .ok (writeToSshConfig { st with config_data := seq })

/-- Insert a record into a host-sorted list. -/
def insRec (r : Record) : List Record → List Record
  | [] => [r]
  | x :: xs => if strLe x.hostOf r.hostOf then x :: insRec r xs else r :: x :: xs

/-- Sort records by host string ascending (Python `sorted` with
`itemgetter("host")`). -/
def sortByHost : List Record → List Record
  | [] => []
  | r :: rs => insRec r (sortByHost rs)

/-- `Storm.list_entries` translated from the source: optional filter to
server entries (excluding the wildcard `Host *` block), optional sort by
host string; a pure read of `config_data`. -/
def listEntriesData (st : StormState) (order onlyServers : Bool) : List Record :=
  let cd :=
    if onlyServers then
      st.config_data.filter (fun r => r.isEntry && !(decide (r.hostOf = ['*'])))
    else st.config_data
  if order then sortByHost cd else cd

/-- `Storm.list_entries` as a state transformer, making it visible that the
stored sequence is returned unchanged. -/
def stormListEntries (order onlyServers : Bool) (st : StormState) :
    List Record × StormState :=
  (listEntriesData st order onlyServers, st)

/-! ## Support lemmas for the claims -/

theorem insRec_perm (r : Record) (l : List Record) : (insRec r l).Perm (r :: l) := by
  induction l with
  | nil => exact List.Perm.refl _
  | cons x xs ih =>
    by_cases h : strLe x.hostOf r.hostOf
    · rw [insRec, if_pos h]
      exact (ih.cons x).trans (List.Perm.swap r x xs)
    · rw [insRec, if_neg h]

theorem sortByHost_perm (l : List Record) : (sortByHost l).Perm l := by
  induction l with
  | nil => exact List.Perm.refl _
  | cons r rs ih =>
    exact (insRec_perm r (sortByHost rs)).trans (ih.cons r)

theorem insRec_pairwise (r : Record) (l : List Record)
    (hl : l.Pairwise (fun a b => strLe a.hostOf b.hostOf = true)) :
    (insRec r l).Pairwise (fun a b => strLe a.hostOf b.hostOf = true) := by
  induction l with
  | nil => simp [insRec]
  | cons x xs ih =>
    rcases List.pairwise_cons.1 hl with ⟨hx, hxs⟩
    by_cases h : strLe x.hostOf r.hostOf
    · rw [insRec, if_pos h]
      rw [List.pairwise_cons]
      refine ⟨?_, ih hxs⟩
      intro b hb
      rcases List.mem_cons.1 ((insRec_perm r xs).mem_iff.1 hb) with hb | hb
      · subst hb; exact h
      · exact hx b hb
    · rw [insRec, if_neg h]
      have hr : strLe r.hostOf x.hostOf = true :=
        (strLe_total x.hostOf r.hostOf).resolve_left h
      rw [List.pairwise_cons]
      refine ⟨?_, hl⟩
      intro b hb
      rcases List.mem_cons.1 hb with hb | hb
      · subst hb; exact hr
      · exact strLe_trans hr (hx b hb)

theorem sortByHost_pairwise (l : List Record) :
    (sortByHost l).Pairwise (fun a b => strLe a.hostOf b.hostOf = true) := by
  induction l with
  | nil => simp [sortByHost]
  | cons r rs ih => exact insRec_pairwise r (sortByHost rs) ih

theorem optSet_cons (k0 : Str) (w : OptionValue) (rest : Options) (k' : Str)
    (v : OptionValue) :
    optSet ((k0, w) :: rest) k' v
      = if k0 = k' then (k0, v) :: rest else (k0, w) :: optSet rest k' v := rfl

theorem optLookup_optSet (os : Options) (k k' : Str) (v : OptionValue) :
    optLookup k (optSet os k' v) = if k' = k then some v else optLookup k os := by
  induction os with
  | nil =>
    by_cases hk : k' = k
    · simp [optSet, optLookup, hk]
    · simp [optSet, optLookup, hk]
  | cons p rest ih =>
    obtain ⟨k0, w⟩ := p
    rw [optSet_cons]
    by_cases h0 : k0 = k'
    · subst h0
      rw [if_pos rfl]
      by_cases hk : k0 = k
      · simp [optLookup, hk]
      · simp [optLookup, hk]
    · rw [if_neg h0]
      by_cases hk : k0 = k
      · subst hk
        have hne : k' ≠ k0 := fun he => h0 he.symm
        simp [optLookup, hne]
      · simp [optLookup, hk, ih]

theorem optDel_cons (k0 : Str) (w : OptionValue) (rest : Options) (k' : Str) :
    optDel ((k0, w) :: rest) k'
      = if k0 = k' then optDel rest k' else (k0, w) :: optDel rest k' := by
  by_cases h : k0 = k'
  · simp [optDel, List.filter_cons, h]
  · simp [optDel, List.filter_cons, h]

theorem optLookup_optDel (os : Options) (k k' : Str) :
    optLookup k (optDel os k') = if k' = k then none else optLookup k os := by
  induction os with
  | nil =>
    by_cases hk : k' = k
    · simp [optDel, optLookup, hk]
    · simp [optDel, optLookup, hk]
  | cons p rest ih =>
    obtain ⟨k0, w⟩ := p
    rw [optDel_cons]
    by_cases h0 : k0 = k'
    · subst h0
      rw [if_pos rfl, ih]
      by_cases hk : k0 = k
      · simp [optLookup, hk]
      · simp [optLookup, hk]
    · rw [if_neg h0]
      by_cases hk : k0 = k
      · subst hk
        have hne : k' ≠ k0 := fun he => h0 he.symm
        simp [optLookup, hne]
      · simp [optLookup, hk, ih]

theorem head_stripQuotes_not {s : Str} {c : Char}
    (h : (stripQuotes s).head? = some c) : isQuote c = false := by
  unfold stripQuotes at h
  obtain ⟨t, ht⟩ :
      ∃ t, (s.dropWhile isQuote).rdropWhile isQuote ++ t = s.dropWhile isQuote :=
    (List.rdropWhile_prefix (p := isQuote) (l := s.dropWhile isQuote))
  have hh : (s.dropWhile isQuote).head? = some c := by
    rw [← ht]
    cases hrd : (s.dropWhile isQuote).rdropWhile isQuote with
    | nil => rw [hrd] at h; simp at h
    | cons a as =>
      rw [hrd] at h
      simp only [List.head?_cons, Option.some_inj] at h
      subst h
      simp
  exact dropWhile_head_not isQuote s hh

theorem stripQuotes_quoteVal (s : Str) : stripQuotes (quoteVal s) = stripQuotes s := by
  show stripQuotes ('"' :: (stripQuotes s ++ ['"'])) = stripQuotes s
  unfold stripQuotes
  rw [List.dropWhile_cons, if_pos (by decide)]
  show ((stripQuotes s ++ ['"']).dropWhile isQuote).rdropWhile isQuote = stripQuotes s
  cases hx : stripQuotes s with
  | nil =>
    simp [List.dropWhile_cons, show isQuote '"' = true from by decide]
  | cons c x' =>
    have hc : isQuote c = false := head_stripQuotes_not (by rw [hx]; rfl)
    rw [List.cons_append, List.dropWhile_cons, if_neg (by simp [hc])]
    rw [← List.cons_append]
    rw [List.rdropWhile_concat_pos isQuote (c :: x') '\x22' (by decide)]
    rw [← hx]
    unfold stripQuotes
    exact List.rdropWhile_idempotent isQuote (List.dropWhile isQuote s)

theorem quoteVal_idem (s : Str) : quoteVal (quoteVal s) = quoteVal s := by
  show '"' :: (stripQuotes (quoteVal s) ++ ['"']) = quoteVal s
  rw [stripQuotes_quoteVal]
  rfl

theorem addHost_ok_of_not_in {st : StormState} {name : Str}
    (h : isHostIn st name = false) (opts : Options) :
    addHost st.config_data name opts
      = .ok (st.config_data ++ [.entry ⟨name, opts⟩]) := by
  unfold addHost
  rw [if_neg ?hc]
  case hc =>
    intro hany
    rw [List.any_eq_true] at hany
    obtain ⟨r, hr, hcond⟩ := hany
    unfold isHostIn at h
    rw [List.any_eq_false] at h
    have := h r hr
    rw [Bool.and_eq_true] at hcond
    rw [hcond.2] at this
    exact this rfl

theorem addEntry_ok {st : StormState} {name : Str} (h u p : Str) (idf : Option Str)
    (cs : List Str) (hni : isHostIn st name = false) :
    addEntry st name h u p idf cs
      = .ok (writeToSshConfig { st with config_data := st.config_data
          ++ [.entry ⟨name, payloadToOptions (getOptions h u p idf cs)⟩] }) := by
  unfold addEntry
  rw [if_neg (by rw [hni]; exact fun hc => nomatch hc)]
  rw [addHost_ok_of_not_in hni]

theorem addEntry_ok_inv {st st' : StormState} {name h u p : Str} {idf : Option Str}
    {cs : List Str} (hok : addEntry st name h u p idf cs = .ok st') :
    isHostIn st name = false
      ∧ st'.config_data = st.config_data
          ++ [.entry ⟨name, payloadToOptions (getOptions h u p idf cs)⟩] := by
  by_cases hin : isHostIn st name = true
  · exfalso
    unfold addEntry at hok
    rw [if_pos hin] at hok
    cases hok
  · have hfalse : isHostIn st name = false := by
      cases hb : isHostIn st name
      · rfl
      · exact absurd hb hin
    refine ⟨hfalse, ?_⟩
    rw [addEntry_ok h u p idf cs hfalse] at hok
    injection hok with hok
    rw [← hok]
    rfl

theorem isHostIn_append_entry (st : StormState) (name : Str) (e : HostRec)
    (cfg' : StormState)
    (hcfg : cfg'.config_data = st.config_data ++ [.entry e]) :
    isHostIn cfg' name = (isHostIn st name || decide (e.host = name)) := by
  unfold isHostIn
  rw [hcfg, List.any_append]
  simp [Record.hostOf]

theorem updFirst_cons (name : Str) (p : Payload) (r : Record) (rs : List Record) :
    updFirst name p (r :: rs)
      = if r.isEntry && decide (r.hostOf = name) then some (updRecord p r :: rs)
        else (updFirst name p rs).map (fun t => r :: t) := rfl

theorem updFirst_append {name : Str} {pre : List Record}
    (hpre : ∀ r ∈ pre, (r.isEntry && decide (r.hostOf = name)) = false)
    (e : HostRec) (he : e.host = name) (post : List Record) (p : Payload) :
    updFirst name p (pre ++ .entry e :: post)
      = some (pre ++ .entry ⟨e.host, applyPayload p e.options⟩ :: post) := by
  induction pre with
  | nil =>
    rw [List.nil_append, updFirst_cons]
    rw [if_pos (by simp [Record.isEntry, Record.hostOf, he])]
    rfl
  | cons r rest ih =>
    rw [List.cons_append, updFirst_cons]
    rw [if_neg (by rw [hpre r (List.mem_cons_self _ _)]; exact fun hc => nomatch hc)]
    rw [ih (fun x hx => hpre x (List.mem_cons_of_mem _ hx))]
    rfl

theorem editEntry_ok_inv {st st' : StormState} {name h u p : Str} {idf : Option Str}
    {cs : List Str} (hok : editEntry st name h u p idf cs = .ok st') :
    updFirst name (getOptions h u p idf cs) st.config_data = some st'.config_data := by
  unfold editEntry at hok
  cases hb : isHostIn st name with
  | false =>
    rw [hb] at hok
    rw [if_pos (by decide)] at hok
    cases hok
  | true =>
    rw [hb] at hok
    rw [if_neg (by decide)] at hok
    unfold updateHost at hok
    rw [if_neg (fun hc => nomatch hc)] at hok
    cases hcase : updFirst name (getOptions h u p idf cs) st.config_data with
    | none => rw [hcase] at hok; cases hok
    | some seq =>
      rw [hcase] at hok
      have hok2 : (Except.ok
            (writeToSshConfig { config_data := seq, fileLines := st.fileLines })
            : Except StormErr StormState)
          = Except.ok st' := hok
      injection hok2 with h3
      rw [← h3]
      rfl

theorem takeWhile_neq_append (k : Str) (hk : '=' ∉ k) (v : Str) :
    (k ++ '=' :: v).takeWhile (fun x => !(x = '=')) = k := by
  induction k with
  | nil => simp [List.takeWhile_cons]
  | cons a as ih =>
    have ha : a ≠ '=' := fun he => hk (he ▸ List.mem_cons_self _ _)
    simp only [List.cons_append, List.takeWhile_cons]
    rw [if_pos (by simp [ha])]
    rw [ih (fun hm => hk (List.mem_cons_of_mem _ hm))]

theorem dropWhile_neq_append (k : Str) (hk : '=' ∉ k) (v : Str) :
    (k ++ '=' :: v).dropWhile (fun x => !(x = '=')) = '=' :: v := by
  induction k with
  | nil => simp [List.dropWhile_cons]
  | cons a as ih =>
    have ha : a ≠ '=' := fun he => hk (he ▸ List.mem_cons_self _ _)
    simp only [List.cons_append, List.dropWhile_cons]
    rw [if_pos (by simp [ha])]
    exact ih (fun hm => hk (List.mem_cons_of_mem _ hm))

theorem quoteOptions_cons (k0 : Str) (v : UpdateVal) (rest : Payload) :
    quoteOptions ((k0, v) :: rest)
      = (if k0 = identityfileK then
          (match v with
           | UpdateVal.val s => (k0, UpdateVal.val (quoteVal s))
           | d => (k0, d))
         else (k0, v)) :: quoteOptions rest := rfl

/-! ## The claims -/

/-- C1: Round-trip idempotence — for every config text, `load` then `dump`
then `load` again yields a Record sequence identical to the first `load`
(same values, order, and list-vs-scalar shape); `dump` is absent exactly on
the empty sequence, and otherwise dumps the rendered lines; in particular a
Host block with two IdentityFile lines loads as a two-element ordered list
and dumps back as two separate IdentityFile lines in the same order. -/
theorem roundtrip_load_dump_load :
    (∀ ls : List Str, loadLines (dumpLines (loadLines ls)) = loadLines ls)
    ∧ (∀ rs : List Record, dump rs = none ↔ rs = [])
    ∧ (∀ rs : List Record, rs ≠ [] → dump rs = some (dumpLines rs))
    ∧ loadLines ["Host h".toList, "    IdentityFile f1".toList,
          "    IdentityFile f2".toList]
        = [.entry ⟨"h".toList, [(identityfileK, .list ["f1".toList, "f2".toList])]⟩]
    ∧ dumpLines
          [.entry ⟨"h".toList, [(identityfileK, .list ["f1".toList, "f2".toList])]⟩]
        = ["Host h".toList, "    identityfile f1".toList,
           "    identityfile f2".toList] := by
  refine ⟨load_dump_load, ?_, ?_, by decide, by decide⟩
  · intro rs
    constructor
    · intro h
      by_cases he : rs = []
      · exact he
      · unfold dump at h
        rw [if_neg he] at h
        cases h
    · intro h
      subst h
      rfl
  · intro rs hne
    unfold dump
    rw [if_neg hne]

/-- Witness for C1: the nonempty-dump conjunct at a concrete sequence. -/
theorem roundtrip_load_dump_load_witness :
    dump [Record.empty] = some (dumpLines [Record.empty]) :=
  roundtrip_load_dump_load.2.2.1 [Record.empty] (by decide)

/-- C8: Empty-sequence dump performs no write — `dump` of the empty Record
sequence is the absent value (not an empty text), and `write_to_file` then
leaves the target file exactly as it was; absence is an ordinary value of
the result type, not an error. -/
theorem empty_dump_no_write :
    dump ([] : List Record) = none
    ∧ (∀ file : List Str, writeToFile [] file = file)
    ∧ dump ([] : List Record) ≠ some []
    ∧ (∀ (rs : List Record) (file : List Str), dump rs = none →
        writeToFile rs file = file) := by
  refine ⟨rfl, fun file => rfl, by decide, ?_⟩
  intro rs file h
  unfold writeToFile
  rw [h]

/-- Witness for C8: a no-write outcome on a concrete file. -/
theorem empty_dump_no_write_witness :
    writeToFile [] ["keep me".toList] = ["keep me".toList] :=
  empty_dump_no_write.2.2.2 [] ["keep me".toList] rfl

/-- C5: Quoting idempotence for identityfile — the normalization strips
surrounding double quotes and wraps in exactly one pair, so applying it any
number of times to `/tmp/k.pem` always yields exactly `"/tmp/k.pem"`, never
nested quotes; and `identityfile` is the only key the normalization
touches. -/
theorem quoting_idempotent_identityfile :
    (∀ s : Str, quoteVal (quoteVal s) = quoteVal s)
    ∧ (∀ n : Nat, quoteVal^[n + 1] "/tmp/k.pem".toList = "\"/tmp/k.pem\"".toList)
    ∧ (∀ (p : Payload) (k : Str), k ≠ identityfileK →
        dictLookup k (quoteOptions p) = dictLookup k p)
    ∧ dictLookup identityfileK
        (getOptions "h".toList "u".toList "22".toList (some "/tmp/k.pem".toList) [])
        = some (.val "\"/tmp/k.pem\"".toList)
    ∧ dictLookup identityfileK
        (getOptions "h".toList "u".toList "22".toList
          (some "\"/tmp/k.pem\"".toList) [])
        = some (.val "\"/tmp/k.pem\"".toList) := by
  refine ⟨quoteVal_idem, ?_, ?_, by decide, by decide⟩
  · intro n
    induction n with
    | zero => decide
    | succ m ih =>
      rw [Function.iterate_succ_apply']
      rw [ih]
      decide
  · intro p k hk
    induction p with
    | nil => rfl
    | cons q rest ih =>
      obtain ⟨k0, v⟩ := q
      rw [quoteOptions_cons]
      by_cases hid : k0 = identityfileK
      · rw [if_pos hid]
        have hne : k0 ≠ k := fun he => hk (he ▸ hid)
        cases v with
        | val s =>
          simp only [dictLookup]
          rw [if_neg hne, if_neg hne, ih]
        | dfs ks =>
          simp only [dictLookup]
          rw [if_neg hne, if_neg hne, ih]
      · rw [if_neg hid]
        simp only [dictLookup]
        by_cases h0 : k0 = k
        · rw [if_pos h0, if_pos h0]
        · rw [if_neg h0, if_neg h0, ih]

/-- Witness for C5: idempotence and the untouched-key conjunct at concrete
inputs. -/
theorem quoting_idempotent_identityfile_witness :
    quoteVal (quoteVal "/tmp/k.pem".toList) = quoteVal "/tmp/k.pem".toList
    ∧ dictLookup portK (quoteOptions [(portK, .val "22".toList)])
        = dictLookup portK [(portK, .val "22".toList)] :=
  ⟨quoting_idempotent_identityfile.1 _,
   quoting_idempotent_identityfile.2.2.1 [(portK, .val "22".toList)] portK
     (by decide)⟩

/-- The compiled form of the pattern `worker-[1-5]`. -/
def workerRe : RePat :=
  [(.lit 'w', .one), (.lit 'o', .one), (.lit 'r', .one), (.lit 'k', .one),
   (.lit 'e', .one), (.lit 'r', .one), (.lit '-', .one),
   (.cls false [.range '1' '5'], .one)]

/-- The five-host fixture of the regex-breadth property. -/
def workerHosts : List Record :=
  [.entry ⟨"worker-1".toList, [(portK, .scalar "22".toList)]⟩,
   .entry ⟨"worker-2".toList, [(portK, .scalar "22".toList)]⟩,
   .entry ⟨"worker-4".toList, [(portK, .scalar "22".toList)]⟩,
   .entry ⟨"worker3".toList, [(portK, .scalar "22".toList)]⟩,
   .entry ⟨"worker".toList, [(portK, .scalar "22".toList)]⟩]

/-- C2: Regex update breadth with prefix semantics — for every compilable
pattern, regex-mode `update_host` updates every entry whose host matches
the pattern starting at position 0 (and only those, leaving non-matching
records unchanged); on hosts worker-1, worker-2, worker-4, worker3, worker
the pattern `worker-[1-5]` changes exactly the first three; and the
matching is match-at-start, not full match (`worker-15x` also matches). -/
theorem regex_update_matches_all :
    (∀ (pat : Str) (re : RePat) (p : Payload) (seq : List Record),
        compile pat = some re → seq.any (entryMatches re) = true →
        updateHost pat p true seq
          = .ok (seq.map (fun r => if entryMatches re r then updRecord p r else r)))
    ∧ (∀ (re : RePat) (p : Payload) (r : Record), entryMatches re r = false →
        (if entryMatches re r then updRecord p r else r) = r)
    ∧ compile "worker-[1-5]".toList = some workerRe
    ∧ workerHosts.map (entryMatches workerRe) = [true, true, true, false, false]
    ∧ updateHost "worker-[1-5]".toList [(portK, .val "9".toList)] true workerHosts
        = .ok [.entry ⟨"worker-1".toList, [(portK, .scalar "9".toList)]⟩,
               .entry ⟨"worker-2".toList, [(portK, .scalar "9".toList)]⟩,
               .entry ⟨"worker-4".toList, [(portK, .scalar "9".toList)]⟩,
               .entry ⟨"worker3".toList, [(portK, .scalar "22".toList)]⟩,
               .entry ⟨"worker".toList, [(portK, .scalar "22".toList)]⟩]
    ∧ matchAt workerRe "worker-15x".toList = true := by
  refine ⟨?_, ?_, by decide, by decide, by decide, by decide⟩
  · intro pat re p seq hc hany
    unfold updateHost
    rw [if_pos rfl, hc]
    show (if seq.any (entryMatches re) = true then _ else _) = _
    rw [if_pos hany]
  · intro re p r h
    rw [if_neg (by rw [h]; exact fun hc => nomatch hc)]

/-- Witness for C2: the general conjunct applied to the worker fixture. -/
theorem regex_update_matches_all_witness :
    updateHost "worker-[1-5]".toList [(portK, .val "9".toList)] true workerHosts
      = .ok (workerHosts.map (fun r =>
          if entryMatches workerRe r
          then updRecord [(portK, .val "9".toList)] r else r)) :=
  regex_update_matches_all.1 "worker-[1-5]".toList workerRe
    [(portK, .val "9".toList)] workerHosts (by decide) (by decide)

/-- C3: Distinct InvalidPattern error — a regex-mode `update_host` whose
pattern does not compile always fails with `InvalidPattern`, an error
distinct from `HostNotFound`; the unterminated class `[` is such a
pattern. -/
theorem invalid_pattern_distinct :
    (∀ (pat : Str) (p : Payload) (seq : List Record), compile pat = none →
        updateHost pat p true seq = .error .invalidPattern)
    ∧ StormErr.invalidPattern ≠ StormErr.hostNotFound
    ∧ compile "[".toList = none := by
  refine ⟨?_, by decide, by decide⟩
  · intro pat p seq hc
    unfold updateHost
    rw [if_pos rfl, hc]

/-- Witness for C3: the non-compiling pattern `[` on a concrete sequence. -/
theorem invalid_pattern_distinct_witness :
    updateHost "[".toList [] true workerHosts = .error .invalidPattern :=
  invalid_pattern_distinct.1 "[".toList [] workerHosts (by decide)

/-- C10: Malformed custom options are silently dropped — each custom option
containing `=` is split at its first `=` into a lowercased key and a value
and stored; a custom option containing no `=` changes nothing and raises
no error (`get_options` is total). -/
theorem custom_options_split_or_dropped :
    (∀ (h u p : Str) (idf : Option Str) (cs1 cs2 : List Str) (c : Str),
        '=' ∉ c →
        getOptions h u p idf (cs1 ++ c :: cs2) = getOptions h u p idf (cs1 ++ cs2))
    ∧ (∀ (os : Payload) (k v : Str), '=' ∉ k →
        applyCustom os (k ++ '=' :: v) = dictSet os (lowerStr k) (.val v))
    ∧ (∀ (h u p : Str) (idf : Option Str) (cs : List Str),
        getOptions h u p idf cs
          = quoteOptions (cs.foldl applyCustom (baseOptions h u p idf)))
    ∧ (∀ (os : Payload) (c : Str), '=' ∉ c → applyCustom os c = os) := by
  refine ⟨?_, ?_, fun h u p idf cs => rfl, ?_⟩
  · intro h u p idf cs1 cs2 c hc
    unfold getOptions
    rw [List.foldl_append, List.foldl_append, List.foldl_cons]
    have hskip : applyCustom (List.foldl applyCustom (baseOptions h u p idf) cs1) c
        = List.foldl applyCustom (baseOptions h u p idf) cs1 := by
      unfold applyCustom
      rw [if_neg hc]
    rw [hskip]
  · intro os k v hk
    unfold applyCustom
    rw [if_pos (by rw [List.mem_append]; exact Or.inr (List.mem_cons_self _ _))]
    rw [takeWhile_neq_append k hk v, dropWhile_neq_append k hk v]
    rfl
  · intro os c hc
    unfold applyCustom
    rw [if_neg hc]

/-- Witness for C10: dropping `junk` and splitting `A=b=c` concretely. -/
theorem custom_options_split_or_dropped_witness :
    getOptions "h".toList "u".toList "22".toList none
        ["junk".toList, "A=b=c".toList]
      = getOptions "h".toList "u".toList "22".toList none ["A=b=c".toList]
    ∧ applyCustom [] ("A".toList ++ '=' :: "b=c".toList)
      = dictSet [] (lowerStr "A".toList) (.val "b=c".toList) :=
  ⟨custom_options_split_or_dropped.1 "h".toList "u".toList "22".toList none
      [] ["A=b=c".toList] "junk".toList (by decide),
   custom_options_split_or_dropped.2.1 [] "A".toList "b=c".toList (by decide)⟩

/-- C4: Exact-match uniqueness of add — adding the same name twice fails
the second time with `HostAlreadyExists`; the duplicate check is exact
string equality on the host identifier over the sequence (no regex, no
alias splitting); and two different names never collide: after a
successful add of `n1`, adding any other absent `n2` succeeds. -/
theorem add_host_exact_uniqueness :
    (∀ (st st' : StormState) (name h u p : Str) (idf : Option Str) (cs : List Str),
        addEntry st name h u p idf cs = .ok st' →
        ∀ (h' u' p' : Str) (idf' : Option Str) (cs' : List Str),
          addEntry st' name h' u' p' idf' cs' = .error .hostAlreadyExists)
    ∧ (∀ (st : StormState) (name h u p : Str) (idf : Option Str) (cs : List Str),
        addEntry st name h u p idf cs = .error .hostAlreadyExists
          ↔ isHostIn st name = true)
    ∧ (∀ (st : StormState) (name : Str),
        isHostIn st name = st.config_data.any (fun r => decide (r.hostOf = name)))
    ∧ (∀ (st st' : StormState) (n1 n2 h u p : Str) (idf : Option Str)
          (cs : List Str),
        n1 ≠ n2 → isHostIn st n2 = false →
        addEntry st n1 h u p idf cs = .ok st' →
        ∀ (h' u' p' : Str) (idf' : Option Str) (cs' : List Str),
          addEntry st' n2 h' u' p' idf' cs'
            = .ok (writeToSshConfig { st' with config_data := st'.config_data
                ++ [.entry ⟨n2,
                    payloadToOptions (getOptions h' u' p' idf' cs')⟩] })) := by
  have hafter : ∀ (st st' : StormState) (name h u p : Str) (idf : Option Str)
      (cs : List Str) (n : Str), addEntry st name h u p idf cs = .ok st' →
      isHostIn st' n = (isHostIn st n || decide (name = n)) := by
    intro st st' name h u p idf cs n hok
    exact isHostIn_append_entry st n _ st' (addEntry_ok_inv hok).2
  refine ⟨?_, ?_, fun st name => rfl, ?_⟩
  · intro st st' name h u p idf cs hok h' u' p' idf' cs'
    have hin : isHostIn st' name = true := by
      rw [hafter st st' name h u p idf cs name hok]
      simp
    unfold addEntry
    rw [if_pos hin]
  · intro st name h u p idf cs
    constructor
    · intro herr
      by_cases hin : isHostIn st name = true
      · exact hin
      · exfalso
        have hfalse : isHostIn st name = false := by
          cases hb : isHostIn st name
          · rfl
          · exact absurd hb hin
        rw [addEntry_ok h u p idf cs hfalse] at herr
        cases herr
    · intro hin
      unfold addEntry
      rw [if_pos hin]
  · intro st st' n1 n2 h u p idf cs hne hn2 hok h' u' p' idf' cs'
    have hin2 : isHostIn st' n2 = false := by
      rw [hafter st st' n1 h u p idf cs n2 hok, hn2]
      simp only [Bool.false_or, decide_eq_false hne]
    exact addEntry_ok h' u' p' idf' cs' hin2

/-- Witness for C4: adding `google` twice on a concrete store, and the
non-collision of the distinct name `goog` (a strict substring). -/
theorem add_host_exact_uniqueness_witness :
    addEntry (writeToSshConfig
        { config_data := [] ++ [.entry ⟨"google".toList,
            payloadToOptions (getOptions "google.com".toList "root".toList
              "22".toList none [])⟩], fileLines := [] })
        "google".toList "x".toList "r".toList "2".toList none []
      = .error .hostAlreadyExists
    ∧ addEntry (writeToSshConfig
        { config_data := [] ++ [.entry ⟨"google".toList,
            payloadToOptions (getOptions "google.com".toList "root".toList
              "22".toList none [])⟩], fileLines := [] })
        "goog".toList "g".toList "r".toList "2".toList none []
      = .ok (writeToSshConfig { writeToSshConfig
          { config_data := [] ++ [.entry ⟨"google".toList,
              payloadToOptions (getOptions "google.com".toList "root".toList
                "22".toList none [])⟩], fileLines := [] } with
          config_data := (writeToSshConfig
            { config_data := [] ++ [.entry ⟨"google".toList,
                payloadToOptions (getOptions "google.com".toList "root".toList
                  "22".toList none [])⟩], fileLines := [] }).config_data
            ++ [.entry ⟨"goog".toList,
                payloadToOptions (getOptions "g".toList "r".toList "2".toList
                  none [])⟩] }) := by
  constructor
  · exact add_host_exact_uniqueness.1 ⟨[], []⟩ _ "google".toList "google.com".toList
      "root".toList "22".toList none [] (by decide) "x".toList "r".toList
      "2".toList none []
  · exact add_host_exact_uniqueness.2.2.2 ⟨[], []⟩ _ "google".toList "goog".toList
      "google.com".toList "root".toList "22".toList none [] (by decide)
      (by decide) (by decide) "g".toList "r".toList "2".toList none []

/-- C7: Search is a live case-sensitive substring containment — it returns
exactly the HostEntry records whose host contains the substring, over the
in-memory sequence, so an entry just added by `add_host` is found without
any write; `NET` does not match `netscaler` (case-sensitive). -/
theorem search_live_substring :
    (∀ (sub : Str) (seq : List Record),
        searchHost sub seq
          = seq.filter (fun r => r.isEntry && strContains sub r.hostOf))
    ∧ (∀ (r : Record) (sub : Str) (seq : List Record),
        r ∈ searchHost sub seq
          ↔ r ∈ seq ∧ r.isEntry = true ∧ strContains sub r.hostOf = true)
    ∧ (∀ (seq : List Record) (name : Str) (opts : Options) (sub : Str)
          (seq' : List Record),
        addHost seq name opts = .ok seq' → strContains sub name = true →
        Record.entry ⟨name, opts⟩ ∈ searchHost sub seq')
    ∧ searchHost "netsca".toList
        [.entry ⟨"netscaler".toList, []⟩, .comment "# c".toList,
         .entry ⟨"other".toList, []⟩]
        = [.entry ⟨"netscaler".toList, []⟩]
    ∧ searchHost "NET".toList [.entry ⟨"netscaler".toList, []⟩] = [] := by
  refine ⟨fun sub seq => rfl, ?_, ?_, by decide, by decide⟩
  · intro r sub seq
    unfold searchHost
    rw [List.mem_filter]
    simp [Bool.and_eq_true]
  · intro seq name opts sub seq' hok hsub
    unfold addHost at hok
    by_cases hany : (seq.any fun r => r.isEntry && decide (r.hostOf = name)) = true
    · rw [if_pos hany] at hok
      cases hok
    · rw [if_neg hany] at hok
      injection hok with hok
      subst hok
      unfold searchHost
      rw [List.mem_filter]
      constructor
      · rw [List.mem_append]
        exact Or.inr (List.mem_singleton.2 rfl)
      · simp [Record.isEntry, Record.hostOf, hsub]

/-- Witness for C7: a freshly appended host is found by a search in the
same session, with no write in between. -/
theorem search_live_substring_witness :
    Record.entry ⟨"searchable-server".toList, []⟩
      ∈ searchHost "searchable".toList
          ([.empty] ++ [.entry ⟨"searchable-server".toList, []⟩]) :=
  search_live_substring.2.2.1 [.empty] "searchable-server".toList []
    "searchable".toList ([.empty] ++ [.entry ⟨"searchable-server".toList, []⟩])
    (by decide) (by decide)

/-- C9: `list_entries` is a pure read view — the state comes back exactly
as it was; without flags the sequence itself is returned; `only_servers`
filters to HostEntry records excluding the wildcard `Host *` block;
`ordered` returns a permutation of that data sorted ascending by host
string. -/
theorem list_entries_read_view :
    (∀ (o s : Bool) (st : StormState), (stormListEntries o s st).2 = st)
    ∧ (∀ st : StormState, (stormListEntries false false st).1 = st.config_data)
    ∧ (∀ st : StormState, (stormListEntries false true st).1
        = st.config_data.filter
            (fun r => r.isEntry && !(decide (r.hostOf = ['*']))))
    ∧ (∀ st : StormState,
        ((stormListEntries true false st).1).Perm st.config_data)
    ∧ (∀ st : StormState, ((stormListEntries true true st).1).Perm
        (st.config_data.filter
          (fun r => r.isEntry && !(decide (r.hostOf = ['*'])))))
    ∧ (∀ (s : Bool) (st : StormState),
        ((stormListEntries true s st).1).Pairwise
          (fun a b => strLe a.hostOf b.hostOf = true)) := by
  refine ⟨fun o s st => rfl, fun st => rfl, fun st => rfl, ?_, ?_, ?_⟩
  · intro st
    exact sortByHost_perm st.config_data
  · intro st
    exact sortByHost_perm _
  · intro s st
    cases s
    · exact sortByHost_pairwise _
    · exact sortByHost_pairwise _

/-- The concrete store of the C6 counterexample: one entry whose current
hostname value is `a.com`, with an identity file and one extra key. -/
def cexSeq : List Record :=
  [.entry ⟨"id-test".toList,
    [(hostnameK, .scalar "a.com".toList), (userK, .scalar "u".toList),
     (portK, .scalar "1".toList), (identityfileK, .scalar "\"k\"".toList),
     ("extra".toList, .scalar "x".toList)]⟩]

/-- The C6 counterexample store. -/
def cexState : StormState := ⟨cexSeq, []⟩

/-- The sequence after the counterexample edit. -/
def cexAfter : List Record :=
  (updFirst "id-test".toList
    (getOptions "b.com".toList "u".toList "1".toList (some DELETED_SIGN) [])
    cexSeq).getD []

/-- C6 counterexample: editing `id-test` with the delete-marker sentinel
and a different host value `b.com` does remove `identityfile`, but the
`hostname` key — an "other key" of that entry — does not keep its previous
value `a.com`: the edit overwrites it with `b.com`. So "every other key of
that entry keeps its previous value" is false as stated. -/
theorem deletion_sentinel_counterexample :
    editEntry cexState "id-test".toList "b.com".toList "u".toList "1".toList
        (some DELETED_SIGN) []
      = .ok ⟨cexAfter, writeToFile cexAfter []⟩
    ∧ optLookup hostnameK ((cexSeq.headD .empty).optionsOf)
        = some (.scalar "a.com".toList)
    ∧ optLookup identityfileK ((cexAfter.headD .empty).optionsOf) = none
    ∧ optLookup hostnameK ((cexAfter.headD .empty).optionsOf)
        = some (.scalar "b.com".toList)
    ∧ some (OptionValue.scalar "b.com".toList)
        ≠ some (OptionValue.scalar "a.com".toList) := by decide

/-- C6 (amended): editing an existing entry with the delete-marker sentinel
is translated into a `deleted_fields` instruction naming `identityfile`;
the resulting update removes the `identityfile` key entirely from that
entry's options mapping, while every key other than the ones the edit
itself supplies (`hostname`, `user`, `port`) keeps its previous value, and
every other record of the sequence is untouched. -/
theorem deletion_sentinel_amended :
    (∀ h u p : Str, getOptions h u p (some DELETED_SIGN) []
        = [(hostnameK, .val h), (userK, .val u), (portK, .val p),
           (deletedFieldsK, .dfs [identityfileK])])
    ∧ (∀ (os : Options) (h u p : Str),
        optLookup identityfileK
          (applyPayload (getOptions h u p (some DELETED_SIGN) []) os) = none)
    ∧ (∀ (os : Options) (h u p k : Str),
        k ≠ hostnameK → k ≠ userK → k ≠ portK → k ≠ identityfileK →
        optLookup k (applyPayload (getOptions h u p (some DELETED_SIGN) []) os)
          = optLookup k os)
    ∧ (∀ (st st' : StormState) (name h u p : Str) (pre post : List Record)
          (e : HostRec),
        st.config_data = pre ++ .entry e :: post →
        (∀ r ∈ pre, (r.isEntry && decide (r.hostOf = name)) = false) →
        e.host = name →
        editEntry st name h u p (some DELETED_SIGN) [] = .ok st' →
        st'.config_data = pre ++ .entry ⟨e.host,
          applyPayload (getOptions h u p (some DELETED_SIGN) []) e.options⟩
          :: post) := by
  have happ : ∀ (os : Options) (h u p : Str),
      applyPayload (getOptions h u p (some DELETED_SIGN) []) os
        = optDel (optSet (optSet (optSet os hostnameK (.scalar h)) userK
            (.scalar u)) portK (.scalar p)) identityfileK :=
    fun _ _ _ _ => rfl
  refine ⟨fun h u p => rfl, ?_, ?_, ?_⟩
  · intro os h u p
    rw [happ, optLookup_optDel, if_pos rfl]
  · intro os h u p k hk1 hk2 hk3 hk4
    rw [happ, optLookup_optDel, if_neg (fun he => hk4 he.symm)]
    rw [optLookup_optSet, if_neg (fun he => hk3 he.symm)]
    rw [optLookup_optSet, if_neg (fun he => hk2 he.symm)]
    rw [optLookup_optSet, if_neg (fun he => hk1 he.symm)]
  · intro st st' name h u p pre post e hcfg hpre he hok
    have hinv := editEntry_ok_inv hok
    rw [hcfg, updFirst_append hpre e he post _] at hinv
    injection hinv with hinv
    exact hinv.symm

/-- Witness for the amended C6: a key the edit does not supply keeps its
value, and the whole-sequence shape on the counterexample store. -/
theorem deletion_sentinel_amended_witness :
    optLookup "extra".toList
        (applyPayload (getOptions "b.com".toList "u".toList "1".toList
          (some DELETED_SIGN) []) [("extra".toList, OptionValue.scalar "x".toList)])
      = optLookup "extra".toList [("extra".toList, OptionValue.scalar "x".toList)]
    ∧ (⟨cexAfter, writeToFile cexAfter []⟩ : StormState).config_data
        = [] ++ .entry ⟨"id-test".toList,
            applyPayload (getOptions "b.com".toList "u".toList "1".toList
              (some DELETED_SIGN) [])
              [(hostnameK, .scalar "a.com".toList), (userK, .scalar "u".toList),
               (portK, .scalar "1".toList),
               (identityfileK, .scalar "\"k\"".toList),
               ("extra".toList, .scalar "x".toList)]⟩ :: [] := by
  constructor
  · exact deletion_sentinel_amended.2.2.1
      [("extra".toList, OptionValue.scalar "x".toList)]
      "b.com".toList "u".toList "1".toList "extra".toList
      (by decide) (by decide) (by decide) (by decide)
  · exact deletion_sentinel_amended.2.2.2 cexState ⟨cexAfter, writeToFile cexAfter []⟩
      "id-test".toList "b.com".toList "u".toList "1".toList [] []
      ⟨"id-test".toList,
        [(hostnameK, .scalar "a.com".toList), (userK, .scalar "u".toList),
         (portK, .scalar "1".toList), (identityfileK, .scalar "\"k\"".toList),
         ("extra".toList, .scalar "x".toList)]⟩
      (by decide) (by intro r hr; cases hr) (by decide) (by decide)

end Storm
